import Mathlib

/-!
Shallow embedding of the rust-ipfs block-exchange core.

Embedded source files:
* `src/repo/fs.rs` — the filesystem-backed block store (`FsBlockStore`):
  `open`, `contains`, `get`, `put`, `remove`, the `block_path` helper and
  the `BlockStoreEvent` completion events.
* `bitswap/src/protocol.rs` — the inbound upgrade of the bitswap wire
  codec (`MAX_BUF_SIZE`, `upgrade_inbound`).
* `src/p2p/behaviour.rs` — the swarm `Behaviour` composite: the
  `MdnsEvent` handler and the `provide_block` / `stop_providing_block`
  stubs.

A `Cid` is represented by its canonical textual form (a list of
characters); block payloads are lists of bytes (naturals).  The
asynchronous store operations spawn a background task that performs one
filesystem call and then branches on its result; each such task is
embedded as a pure step function taking the filesystem call's result
explicitly, and the whole-store operations compose the step function
with a deterministic model filesystem (an association list from file
name to contents, all names relative to the store's root directory).
-/

namespace RustIpfs

/-- A content identifier, represented by its canonical textual form
(`cid.to_string()` in the source). -/
abbrev Cid := List Char

/-- A block payload: a byte sequence. -/
abbrev Bytes := List Nat

/-- The kind of an I/O error, mirroring `std::io::ErrorKind` at the
granularity the source inspects: `NotFound` versus anything else. -/
inductive ErrorKind where
  | notFound
  | other
  deriving DecidableEq, Repr

/-- An I/O error as observed by the store code: only its kind matters. -/
structure IoError where
  kind : ErrorKind
  deriving DecidableEq, Repr

/-- Equality of `Except` values is decidable when it is on both sides. -/
instance exceptDecEq {ε α : Type} [DecidableEq ε] [DecidableEq α] :
    DecidableEq (Except ε α) := fun x y =>
  match x, y with
  | .ok a, .ok b =>
    if h : a = b then .isTrue (by rw [h]) else .isFalse (by simp [h])
  | .error a, .error b =>
    if h : a = b then .isTrue (by rw [h]) else .isFalse (by simp [h])
  | .ok _, .error _ => .isFalse (by simp)
  | .error _, .ok _ => .isFalse (by simp)

/-- `BlockStoreEvent` from `src/repo/fs.rs`: the completion record of an
asynchronous store operation. -/
inductive BlockStoreEvent where
  | Get (cid : Cid) (res : Except IoError (Option Bytes))
  | Put (cid : Cid) (res : Except IoError Unit)
  | Remove (cid : Cid) (res : Except IoError Unit)
  deriving DecidableEq, Repr

/-- The model filesystem directory: an association list from file name
(relative to the store root) to file contents. -/
abbrev Dir := List (List Char × Bytes)

/-- Look a file up by name. -/
def dirLookup : Dir → List Char → Option Bytes
  | [], _ => none
  | (n, d) :: rest, name => if n = name then some d else dirLookup rest name

/-- Create or overwrite a file, as `fs::write` does. -/
def dirInsert : Dir → List Char → Bytes → Dir
  | [], name, data => [(name, data)]
  | (n, d) :: rest, name, data =>
    if n = name then (name, data) :: rest else (n, d) :: dirInsert rest name data

/-- Delete a file by name. -/
def dirRemove : Dir → List Char → Dir
  | [], _ => []
  | (n, d) :: rest, name => if n = name then rest else (n, d) :: dirRemove rest name

/-- The file names present in the directory (what `fs::read_dir` yields). -/
def dirEntries (dir : Dir) : List (List Char) := dir.map Prod.fst

/-- `fs::read`: the contents when the file exists, a `NotFound` error
otherwise. -/
def fsRead (dir : Dir) (path : List Char) : Except IoError Bytes :=
  match dirLookup dir path with
  | some data => .ok data
  | none => .error ⟨.notFound⟩

/-- `fs::write`: creates or overwrites; in the model filesystem a write
always succeeds (write failures are covered by `putTask`, which takes
the write's result explicitly). -/
def fsWrite (dir : Dir) (path : List Char) (data : Bytes) : Dir :=
  dirInsert dir path data

/-- `fs::remove_file`: removes the file, or fails with `NotFound`. -/
def fsRemoveFile (dir : Dir) (path : List Char) : Except IoError Dir :=
  match dirLookup dir path with
  | some _ => .ok (dirRemove dir path)
  | none => .error ⟨.notFound⟩

/-- The characters of the `"data"` file suffix used by the store. -/
def dataExt : List Char := ['d', 'a', 't', 'a']

/-- `block_path` from `src/repo/fs.rs`: the block's file name is the
cid's textual form with `".data"` appended (the join with the store's
root directory is elided, all names being relative to that root). -/
def block_path (cid : Cid) : List Char :=
  cid ++ '.' :: dataExt

/-- Insert into the in-memory identifier set (`HashSet::insert`). -/
def insertCid (cid : Cid) (cids : List Cid) : List Cid :=
  if cid ∈ cids then cids else cid :: cids

/-- Remove from the in-memory identifier set (`HashSet::remove`). -/
def eraseCid (cid : Cid) (cids : List Cid) : List Cid :=
  cids.filter (fun x => x ≠ cid)

/-- The state of an `FsBlockStore`: the backing directory and the
in-memory identifier set (the event channel is modelled by returning
each operation's completion event directly). -/
structure FsBlockStore where
  dir : Dir
  cids : List Cid
  deriving DecidableEq, Repr

/-- The background task spawned by `get`, as a function of the result of
its one `fs::read` call: bytes yield `Ok(Some bytes)`, a `NotFound`
error yields `Ok(None)`, any other error is passed through. -/
def getTask (cid : Cid) (readRes : Except IoError Bytes) : BlockStoreEvent :=
  match readRes with
  | .ok data => .Get cid (.ok (some data))
  | .error err =>
    if err.kind = .notFound then .Get cid (.ok none) else .Get cid (.error err)

/-- The background task spawned by `put`, as a function of the in-memory
identifier set and the result of its one `fs::write` call: on success
the cid is inserted into the set and a success event is sent; on failure
the set is untouched and the event carries the error. -/
def putTask (cids : List Cid) (cid : Cid) (writeRes : Except IoError Unit) :
    List Cid × BlockStoreEvent :=
  match writeRes with
  | .ok _ => (insertCid cid cids, .Put cid (.ok ()))
  | .error err => (cids, .Put cid (.error err))

/-- The background task spawned by `remove`, as a function of the
in-memory identifier set and the result of its one `fs::remove_file`
call: on success the cid is removed from the set; a `NotFound` error is
reported as success but leaves the set untouched; any other error is
passed through. -/
def removeTask (cids : List Cid) (cid : Cid) (removeRes : Except IoError Unit) :
    List Cid × BlockStoreEvent :=
  match removeRes with
  | .ok _ => (eraseCid cid cids, .Remove cid (.ok ()))
  | .error err =>
    if err.kind = .notFound then (cids, .Remove cid (.ok ()))
    else (cids, .Remove cid (.error err))

/-- `FsBlockStore::contains`: synchronous membership in the in-memory
identifier set. -/
def contains (store : FsBlockStore) (cid : Cid) : Bool :=
  decide (cid ∈ store.cids)

/-- `FsBlockStore::get` against the model filesystem: read the block's
file and run the get task on the result. -/
def get (store : FsBlockStore) (cid : Cid) : BlockStoreEvent :=
  getTask cid (fsRead store.dir (block_path cid))

/-- `FsBlockStore::put` against the model filesystem: write the block's
file (always succeeds in the model) and run the put task on the result. -/
def put (store : FsBlockStore) (cid : Cid) (data : Bytes) :
    FsBlockStore × BlockStoreEvent :=
  let dir := fsWrite store.dir (block_path cid) data
  let res := putTask store.cids cid (.ok ())
  (⟨dir, res.1⟩, res.2)

/-- `FsBlockStore::remove` against the model filesystem: delete the
block's file and run the remove task on the result. -/
def remove (store : FsBlockStore) (cid : Cid) : FsBlockStore × BlockStoreEvent :=
  match fsRemoveFile store.dir (block_path cid) with
  | .ok dir =>
    let res := removeTask store.cids cid (.ok ())
    (⟨dir, res.1⟩, res.2)
  | .error err =>
    let res := removeTask store.cids cid (.error err)
    (⟨store.dir, res.1⟩, res.2)

/-- Split a file name at its last dot: `some (stem, ext)` when a dot
exists, with the dot itself dropped. -/
def lastDotSplit : List Char → Option (List Char × List Char)
  | [] => none
  | c :: cs =>
    match lastDotSplit cs with
    | some (stem, ext) => some (c :: stem, ext)
    | none => if c = '.' then some ([], cs) else none

/-- `Path::extension` on a bare file name: the part after the last dot,
or `none` when there is no dot or the only dot leads the name (a hidden
file such as `".data"` has no extension). -/
def fileExtension (name : List Char) : Option (List Char) :=
  match lastDotSplit name with
  | some (stem, ext) => if stem = [] then none else some ext
  | none => none

/-- `Path::file_stem` on a bare file name: the part before the last dot,
the whole name when there is no dot or the only dot leads the name, and
`none` only for the empty name. -/
def fileStem (name : List Char) : Option (List Char) :=
  match lastDotSplit name with
  | some (stem, _) => if stem = [] then some name else some stem
  | none => if name = [] then none else some name

/-- The error produced when a file stem fails to parse as a cid. -/
structure CidParseFail where
  input : List Char
  deriving DecidableEq, Repr

/-- `Cid::try_from` on a textual form, abstracted over the external
parser (the libipld dependency): a valid string parses to the cid it
denotes (identified here with the string itself, cids being represented
by their canonical textual form), an invalid one fails. -/
def parseCid (validCid : List Char → Bool) (s : List Char) : Except CidParseFail Cid :=
  if validCid s then .ok s else .error ⟨s⟩

/-- The directory scan loop of `FsBlockStore::open`: entries whose
extension is not `"data"` are skipped; for each `".data"` entry the stem
is parsed as a cid — on success it is inserted into the accumulating
identifier set, on failure the scan aborts with the parse error.  (The
`none` stem branch is unreachable: an entry with an extension always has
a stem; the source `unwrap`s there.) -/
def scanEntries (validCid : List Char → Bool) :
    List (List Char) → List Cid → Except CidParseFail (List Cid)
  | [], cids => .ok cids
  | name :: rest, cids =>
    if fileExtension name ≠ some dataExt then
      scanEntries validCid rest cids
    else
      match fileStem name with
      | some stem =>
        match parseCid validCid stem with
        | .ok cid => scanEntries validCid rest (insertCid cid cids)
        | .error e => .error e
      | none => scanEntries validCid rest cids

/-- `FsBlockStore::open` after the directory listing: rebuild the
in-memory identifier set from the entries found at the store's root. -/
def openStore (validCid : List Char → Bool) (entries : List (List Char)) :
    Except CidParseFail (List Cid) :=
  scanEntries validCid entries []

/-- A message of the bitswap wire protocol: want-list entries (cid and
priority) and block payloads. -/
structure Message where
  wantlist : List (Cid × Nat)
  blocks : List (Cid × Bytes)
  deriving DecidableEq, Repr

/-- `BitswapError` at the granularity `upgrade_inbound` produces it:
an oversized frame (from the size-capped read) or a decode failure. -/
inductive BitswapError where
  | tooLarge
  | decodeFail
  deriving DecidableEq, Repr

/-- `MAX_BUF_SIZE` from `bitswap/src/protocol.rs`. -/
def MAX_BUF_SIZE : Nat := 524288

/-- Modelled from the spec: `upgrade::read_one` (a libp2p-core
dependency) reads exactly one length-delimited frame, capped at the
maximum frame size; a frame exceeding the cap fails the read with a
typed protocol error, a frame within the cap is delivered whole. -/
def read_one (frame : Bytes) (maxSize : Nat) : Except BitswapError Bytes :=
  if frame.length > maxSize then .error .tooLarge else .ok frame

/-- Modelled from the spec: `Message::from_bytes` lives in the bitswap
ledger module, which is not among the shown sources, and the spec does
not fix the wire encoding; the decoder is therefore a parameter.
`upgrade_inbound` itself follows `bitswap/src/protocol.rs`: read one
frame capped at `MAX_BUF_SIZE`, then decode it into a `Message`,
propagating either failure as the upgrade attempt's error. -/
def upgrade_inbound (decode : Bytes → Except BitswapError Message)
    (frame : Bytes) : Except BitswapError Message :=
  match read_one frame MAX_BUF_SIZE with
  | .ok packet => decode packet
  | .error e => .error e

/-- A peer identity. -/
abbrev PeerId := Nat

/-- The swarm `Behaviour` state from `src/p2p/behaviour.rs`: the mdns
service's known nodes, the kademlia routing entries (opaque records),
the peers with ledger state in the bitswap decision engine, the ping
and identify sub-behaviours (opaque), and the floodsub partial view. -/
structure Behaviour where
  mdns : List PeerId
  kademlia : List (PeerId × List Nat)
  bitswapPeers : List PeerId
  ping : Nat
  identify : Nat
  floodsubView : List PeerId
  deriving DecidableEq, Repr

/-- Modelled from the spec: `Bitswap::connect` (bitswap behaviour
module, not among the shown sources) brings a peer under the decision
engine's management — the peer joins the set of peers with ledger
state. -/
def bitswapConnect (peers : List PeerId) (peer : PeerId) : List PeerId :=
  if peer ∈ peers then peers else peer :: peers

/-- `Floodsub::add_node_to_partial_view`. -/
def floodsubAddNode (view : List PeerId) (peer : PeerId) : List PeerId :=
  if peer ∈ view then view else peer :: view

/-- `Floodsub::remove_node_from_partial_view`. -/
def floodsubRemoveNode (view : List PeerId) (peer : PeerId) : List PeerId :=
  view.filter (fun p => p ≠ peer)

/-- `MdnsEvent`: a list of discovered peers or a list of expired
peers (the multiaddrs paired with them in the source are unused by the
handler and elided). -/
inductive MdnsEvent where
  | Discovered (list : List PeerId)
  | Expired (list : List PeerId)
  deriving DecidableEq, Repr

/-- The `NetworkBehaviourEventProcess<MdnsEvent>::inject_event` handler
from `src/p2p/behaviour.rs`: on `Discovered`, each peer is connected in
bitswap and added to the floodsub partial view; on `Expired`, each peer
the mdns service no longer has is removed from the floodsub partial
view (and nothing else happens). -/
def injectMdnsEvent (b : Behaviour) (ev : MdnsEvent) : Behaviour :=
  match ev with
  | .Discovered l =>
    l.foldl (fun b peer =>
      { b with
        bitswapPeers := bitswapConnect b.bitswapPeers peer
        floodsubView := floodsubAddNode b.floodsubView peer }) b
  | .Expired l =>
    l.foldl (fun b peer =>
      if decide (peer ∈ b.mdns) then b
      else { b with floodsubView := floodsubRemoveNode b.floodsubView peer }) b

/-- `Behaviour::provide_block`: the body only logs; the state is
untouched (the kademlia announcement is commented out in the source). -/
def provide_block (b : Behaviour) (cid : Cid) : Behaviour :=
  let _ := cid
  b

/-- `Behaviour::stop_providing_block`: the body only logs; the state is
untouched (the kademlia retraction is commented out in the source). -/
def stop_providing_block (b : Behaviour) (cid : Cid) : Behaviour :=
  let _ := cid
  b

/-! ## Helper lemmas -/

/-- Looking up a name right after writing it yields the written data. -/
theorem dirLookup_dirInsert_self (dir : Dir) (name : List Char) (data : Bytes) :
    dirLookup (dirInsert dir name data) name = some data := by
  induction dir with
  | nil => simp [dirInsert, dirLookup]
  | cons hd tl ih =>
    obtain ⟨n, d⟩ := hd
    by_cases h : n = name
    · simp [dirInsert, h, dirLookup]
    · simp [dirInsert, h, dirLookup, ih]

/-- The written name is among the directory entries afterwards. -/
theorem mem_dirEntries_dirInsert (dir : Dir) (name : List Char) (data : Bytes) :
    name ∈ dirEntries (dirInsert dir name data) := by
  induction dir with
  | nil => simp [dirInsert, dirEntries]
  | cons hd tl ih =>
    obtain ⟨n, d⟩ := hd
    by_cases h : n = name
    · simp [dirInsert, h, dirEntries]
    · simp only [dirInsert, h, if_false, dirEntries, List.map_cons, List.mem_cons]
      exact Or.inr ih

/-- The inserted cid is in the set afterwards. -/
theorem mem_insertCid_self (cid : Cid) (cids : List Cid) : cid ∈ insertCid cid cids := by
  by_cases h : cid ∈ cids <;> simp [insertCid, h]

/-- Insertion preserves prior members. -/
theorem mem_insertCid_of_mem {x cid : Cid} {cids : List Cid} (h : x ∈ cids) :
    x ∈ insertCid cid cids := by
  by_cases hc : cid ∈ cids <;> simp [insertCid, hc, h]

/-- A successful scan keeps everything already accumulated. -/
theorem scanEntries_acc_subset (validCid : List Char → Bool)
    (entries : List (List Char)) :
    ∀ acc cids x, scanEntries validCid entries acc = .ok cids → x ∈ acc → x ∈ cids := by
  induction entries with
  | nil =>
    intro acc cids x h hx
    simp [scanEntries] at h
    exact h ▸ hx
  | cons name rest ih =>
    intro acc cids x h hx
    by_cases he : fileExtension name = some dataExt
    · cases hs : fileStem name with
      | none =>
        simp only [scanEntries, he, hs] at h
        simp at h
        exact ih acc cids x h hx
      | some stem =>
        by_cases hv : validCid stem = true
        · simp [scanEntries, he, hs, parseCid, hv] at h
          exact ih (insertCid stem acc) cids x h (mem_insertCid_of_mem hx)
        · simp [scanEntries, he, hs, parseCid, hv] at h
    · simp [scanEntries, he] at h
      exact ih acc cids x h hx

/-- A `".data"` entry whose stem parses ends up in a successful scan's
identifier set. -/
theorem scanEntries_mem_of_entry (validCid : List Char → Bool)
    (entries : List (List Char)) :
    ∀ acc cids name stem, scanEntries validCid entries acc = .ok cids →
      name ∈ entries → fileExtension name = some dataExt →
      fileStem name = some stem → validCid stem = true → stem ∈ cids := by
  induction entries with
  | nil =>
    intro acc cids name stem _ hmem
    simp at hmem
  | cons hd rest ih =>
    intro acc cids name stem h hmem hext hstem hv
    rcases List.mem_cons.mp hmem with rfl | hm2
    · simp [scanEntries, hext, hstem, parseCid, hv] at h
      exact scanEntries_acc_subset validCid rest _ cids stem h (mem_insertCid_self stem acc)
    · by_cases he : fileExtension hd = some dataExt
      · cases hs : fileStem hd with
        | none =>
          simp only [scanEntries, he, hs] at h
          simp at h
          exact ih _ cids name stem h hm2 hext hstem hv
        | some st2 =>
          by_cases hv2 : validCid st2 = true
          · simp [scanEntries, he, hs, parseCid, hv2] at h
            exact ih _ cids name stem h hm2 hext hstem hv
          · simp [scanEntries, he, hs, parseCid, hv2] at h
      · simp [scanEntries, he] at h
        exact ih acc cids name stem h hm2 hext hstem hv

/-- Splitting a name of the form `cid ++ ".data"` at its last dot
recovers the cid and the `"data"` suffix. -/
theorem lastDotSplit_append_ext (cid : Cid) :
    lastDotSplit (cid ++ '.' :: dataExt) = some (cid, dataExt) := by
  induction cid with
  | nil => rfl
  | cons c cs ih => simp [lastDotSplit, ih]

/-- A nonempty cid's block file has extension `"data"`. -/
theorem fileExtension_block_path (cid : Cid) (h : cid ≠ []) :
    fileExtension (block_path cid) = some dataExt := by
  simp [fileExtension, block_path, lastDotSplit_append_ext, h]

/-- A nonempty cid's block file has the cid itself as stem. -/
theorem fileStem_block_path (cid : Cid) (h : cid ≠ []) :
    fileStem (block_path cid) = some cid := by
  simp [fileStem, block_path, lastDotSplit_append_ext, h]

/-- A name that has an extension has a (nonempty-stem) file stem. -/
theorem exists_stem_of_ext (name e : List Char) (h : fileExtension name = some e) :
    ∃ stem, fileStem name = some stem ∧ stem ≠ [] := by
  cases hs : lastDotSplit name with
  | none => simp [fileExtension, hs] at h
  | some p =>
    obtain ⟨stem, ext⟩ := p
    by_cases hst : stem = []
    · simp [fileExtension, hs, hst] at h
    · exact ⟨stem, by simp [fileStem, hs, hst], hst⟩

/-- The scan succeeds exactly when every `".data"` entry's stem parses. -/
theorem scanEntries_ok_iff (validCid : List Char → Bool)
    (entries : List (List Char)) :
    ∀ acc, (∃ cids, scanEntries validCid entries acc = .ok cids) ↔
      (∀ name ∈ entries, fileExtension name = some dataExt →
        ∀ stem, fileStem name = some stem → validCid stem = true) := by
  induction entries with
  | nil => intro acc; simp [scanEntries]
  | cons hd rest ih =>
    intro acc
    by_cases he : fileExtension hd = some dataExt
    · obtain ⟨stem0, hs0, _⟩ := exists_stem_of_ext hd dataExt he
      by_cases hv : validCid stem0 = true
      · constructor
        · rintro ⟨cids, h⟩ name hmem hext stem hstem
          rcases List.mem_cons.mp hmem with rfl | hm2
          · rw [hstem] at hs0
            rw [Option.some.inj hs0]
            exact hv
          · simp [scanEntries, he, hs0, parseCid, hv] at h
            exact ((ih (insertCid stem0 acc)).mp ⟨cids, h⟩) name hm2 hext stem hstem
        · intro hall
          obtain ⟨cids, hc⟩ :=
            (ih (insertCid stem0 acc)).mpr (fun n hn => hall n (List.mem_cons_of_mem _ hn))
          exact ⟨cids, by simp [scanEntries, he, hs0, parseCid, hv, hc]⟩
      · constructor
        · rintro ⟨cids, h⟩
          simp [scanEntries, he, hs0, parseCid, hv] at h
        · intro hall
          exact absurd (hall hd (List.mem_cons_self hd rest) he stem0 hs0) hv
    · constructor
      · rintro ⟨cids, h⟩ name hmem hext stem hstem
        rcases List.mem_cons.mp hmem with rfl | hm2
        · exact absurd hext he
        · simp [scanEntries, he] at h
          exact ((ih acc).mp ⟨cids, h⟩) name hm2 hext stem hstem
      · intro hall
        obtain ⟨cids, hc⟩ := (ih acc).mpr (fun n hn => hall n (List.mem_cons_of_mem _ hn))
        exact ⟨cids, by simp [scanEntries, he, hc]⟩

/-- Unfolding the `Expired` fold one peer at a time. -/
theorem injectMdnsEvent_expired_cons (b : Behaviour) (p : PeerId) (rest : List PeerId) :
    injectMdnsEvent b (.Expired (p :: rest)) =
      injectMdnsEvent
        (if decide (p ∈ b.mdns) then b
         else { b with floodsubView := floodsubRemoveNode b.floodsubView p })
        (.Expired rest) := rfl

/-- The `Expired` handler touches no field but the floodsub view. -/
theorem injectMdnsEvent_expired_frame (l : List PeerId) :
    ∀ b : Behaviour,
      (injectMdnsEvent b (.Expired l)).mdns = b.mdns ∧
      (injectMdnsEvent b (.Expired l)).kademlia = b.kademlia ∧
      (injectMdnsEvent b (.Expired l)).bitswapPeers = b.bitswapPeers ∧
      (injectMdnsEvent b (.Expired l)).ping = b.ping ∧
      (injectMdnsEvent b (.Expired l)).identify = b.identify := by
  induction l with
  | nil => intro b; exact ⟨rfl, rfl, rfl, rfl, rfl⟩
  | cons p rest ih =>
    intro b
    rw [injectMdnsEvent_expired_cons]
    by_cases h : p ∈ b.mdns
    · have h2 : (if decide (p ∈ b.mdns) then b
          else { b with floodsubView := floodsubRemoveNode b.floodsubView p }) = b := by
        simp [h]
      rw [h2]
      exact ih b
    · have h2 : (if decide (p ∈ b.mdns) then b
          else { b with floodsubView := floodsubRemoveNode b.floodsubView p }) =
          { b with floodsubView := floodsubRemoveNode b.floodsubView p } := by
        simp [h]
      rw [h2]
      exact ih { b with floodsubView := floodsubRemoveNode b.floodsubView p }

/-! ## Claim theorems -/

/-- C1: for every byte sequence and every identifier (in particular the
one computed from the bytes), after a `put` of the bytes under that
identifier completes successfully on the filesystem-backed block store,
a subsequent `get` for that identifier delivers a completion event
carrying exactly those bytes. -/
theorem put_get_roundtrip (store : FsBlockStore) (cid : Cid) (data : Bytes) :
    (put store cid data).2 = .Put cid (.ok ()) ∧
    get (put store cid data).1 cid = .Get cid (.ok (some data)) := by
  refine ⟨rfl, ?_⟩
  simp [get, put, fsRead, fsWrite, putTask, getTask, dirLookup_dirInsert_self]

/-- C2: for an identifier not initially in the store, `contains` is
false before the `put`, the `put` completes successfully and `contains`
is true immediately after, and after a `remove` whose completion event
reports success `contains` is false again. -/
theorem contains_put_remove (store : FsBlockStore) (cid : Cid) (data : Bytes)
    (h : cid ∉ store.cids) :
    contains store cid = false ∧
    (put store cid data).2 = .Put cid (.ok ()) ∧
    contains (put store cid data).1 cid = true ∧
    (remove (put store cid data).1 cid).2 = .Remove cid (.ok ()) ∧
    contains (remove (put store cid data).1 cid).1 cid = false := by
  refine ⟨by simp [contains, h], rfl, ?_, ?_, ?_⟩
  · simp only [contains, put, putTask, decide_eq_true_eq]
    exact mem_insertCid_self cid store.cids
  · simp [remove, put, putTask, fsWrite, fsRemoveFile, dirLookup_dirInsert_self, removeTask]
  · simp [remove, put, putTask, fsWrite, fsRemoveFile, dirLookup_dirInsert_self, removeTask,
      contains, eraseCid, List.mem_filter]

/-- Witness for C2 at a concrete empty store. -/
theorem contains_put_remove_witness :
    contains ⟨[], []⟩ ['a'] = false ∧
    (put ⟨[], []⟩ ['a'] [1]).2 = .Put ['a'] (.ok ()) ∧
    contains (put ⟨[], []⟩ ['a'] [1]).1 ['a'] = true ∧
    (remove (put ⟨[], []⟩ ['a'] [1]).1 ['a']).2 = .Remove ['a'] (.ok ()) ∧
    contains (remove (put ⟨[], []⟩ ['a'] [1]).1 ['a']).1 ['a'] = false :=
  contains_put_remove ⟨[], []⟩ ['a'] [1] (by decide)

/-- C3: the codec's frame-size limit is exactly 524,288 bytes; an
inbound frame larger than that fails the upgrade attempt with a typed
protocol error, while a frame exactly at the limit that decodes
(well-formed) yields the decoded `Message`. -/
theorem frame_size_limit :
    MAX_BUF_SIZE = 524288 ∧
    (∀ (decode : Bytes → Except BitswapError Message) (frame : Bytes),
      frame.length > 524288 → upgrade_inbound decode frame = .error .tooLarge) ∧
    (∀ (decode : Bytes → Except BitswapError Message) (frame : Bytes) (msg : Message),
      frame.length = 524288 → decode frame = .ok msg →
      upgrade_inbound decode frame = .ok msg) := by
  refine ⟨rfl, fun decode frame h => ?_, fun decode frame msg h hd => ?_⟩
  · simp [upgrade_inbound, read_one, MAX_BUF_SIZE, h]
  · simp [upgrade_inbound, read_one, MAX_BUF_SIZE, h, hd]

/-- Witness for C3: an oversized frame fails, an at-limit frame
decodes. -/
theorem frame_size_limit_witness :
    upgrade_inbound (fun _ => .ok ⟨[], []⟩) (List.replicate 524289 0) = .error .tooLarge ∧
    upgrade_inbound (fun _ => .ok ⟨[], []⟩) (List.replicate 524288 0) = .ok ⟨[], []⟩ :=
  ⟨frame_size_limit.2.1 _ _ (by norm_num [List.length_replicate]),
   frame_size_limit.2.2 _ _ _ (by norm_num [List.length_replicate]) rfl⟩

/-- C4 counterexample: with cid `"a"` present holding payload `[1]`, a
`put` of the differing payload `[2]` under the same identifier does
replace it — the subsequent `get` returns `[2]`, not `[1]`, with no
removal in between. -/
theorem put_overwrites_cex :
    get (put ⟨[(block_path ['a'], [1])], [['a']]⟩ ['a'] [2]).1 ['a'] =
      .Get ['a'] (.ok (some [2])) ∧
    get (put ⟨[(block_path ['a'], [1])], [['a']]⟩ ['a'] [2]).1 ['a'] ≠
      .Get ['a'] (.ok (some [1])) := by
  constructor <;> decide

/-- C4 amended: for an identifier already present with payload `pOld`,
a `put` of payload `pNew` under that identifier succeeds and replaces
the stored payload — a subsequent `get` returns `pNew`, and when the
payloads differ it no longer returns `pOld`; the store permits
overwriting without prior removal. -/
theorem put_overwrites (store : FsBlockStore) (cid : Cid) (pOld pNew : Bytes)
    (_h : dirLookup store.dir (block_path cid) = some pOld) :
    (put store cid pNew).2 = .Put cid (.ok ()) ∧
    get (put store cid pNew).1 cid = .Get cid (.ok (some pNew)) ∧
    (pOld ≠ pNew → get (put store cid pNew).1 cid ≠ .Get cid (.ok (some pOld))) := by
  refine ⟨rfl, ?_, ?_⟩
  · simp [get, put, fsRead, fsWrite, putTask, getTask, dirLookup_dirInsert_self]
  · intro hne hcontra
    simp [get, put, fsRead, fsWrite, putTask, getTask, dirLookup_dirInsert_self] at hcontra
    exact hne hcontra.symm

/-- Witness for C4's amended theorem at a concrete one-block store. -/
theorem put_overwrites_witness :
    (put ⟨[(block_path ['b'], [1])], [['b']]⟩ ['b'] [2]).2 = .Put ['b'] (.ok ()) ∧
    get (put ⟨[(block_path ['b'], [1])], [['b']]⟩ ['b'] [2]).1 ['b'] =
      .Get ['b'] (.ok (some [2])) ∧
    ([1] ≠ ([2] : Bytes) →
      get (put ⟨[(block_path ['b'], [1])], [['b']]⟩ ['b'] [2]).1 ['b'] ≠
        .Get ['b'] (.ok (some [1]))) :=
  put_overwrites ⟨[(block_path ['b'], [1])], [['b']]⟩ ['b'] [1] [2] (by decide)

/-- C5: the `put` task inserts the identifier into the in-memory set
exactly when the backing write succeeded; on a failed write the set is
left unchanged and the completion event carries the I/O error. -/
theorem put_error_state_unchanged :
    (∀ (cids : List Cid) (cid : Cid) (err : IoError),
      putTask cids cid (.error err) = (cids, .Put cid (.error err))) ∧
    (∀ (cids : List Cid) (cid : Cid),
      putTask cids cid (.ok ()) = (insertCid cid cids, .Put cid (.ok ()))) :=
  ⟨fun _ _ _ => rfl, fun _ _ => rfl⟩

/-- C6: the `get` task reports absence (`NotFound`) as a successful
"not found" outcome, delivers the bytes on a successful read, and
delivers an error outcome exactly for read failures whose kind is not
`NotFound`. -/
theorem get_notfound_not_error :
    (∀ (cid : Cid) (data : Bytes),
      getTask cid (.ok data) = .Get cid (.ok (some data))) ∧
    (∀ (cid : Cid) (err : IoError), err.kind = .notFound →
      getTask cid (.error err) = .Get cid (.ok none)) ∧
    (∀ (cid : Cid) (err : IoError), err.kind ≠ .notFound →
      getTask cid (.error err) = .Get cid (.error err)) := by
  refine ⟨fun _ _ => rfl, fun cid err h => ?_, fun cid err h => ?_⟩
  · simp [getTask, h]
  · simp [getTask, h]

/-- Witness for C6 at concrete read results of both error kinds. -/
theorem get_notfound_not_error_witness :
    getTask ['a'] (.error ⟨.notFound⟩) = .Get ['a'] (.ok none) ∧
    getTask ['b'] (.error ⟨.other⟩) = .Get ['b'] (.error ⟨.other⟩) :=
  ⟨get_notfound_not_error.2.1 ['a'] ⟨.notFound⟩ rfl,
   get_notfound_not_error.2.2 ['b'] ⟨.other⟩ (by decide)⟩

/-- C7: after a successful `put` of a (nonempty, parseable) identifier,
reopening a store over the same directory rebuilds an identifier set for
which `contains` answers true for that identifier. -/
theorem persistence_after_reopen (validCid : List Char → Bool)
    (store : FsBlockStore) (cid : Cid) (data : Bytes) (cids : List Cid)
    (hne : cid ≠ []) (hv : validCid cid = true)
    (hopen : openStore validCid (dirEntries (put store cid data).1.dir) = .ok cids) :
    contains ⟨(put store cid data).1.dir, cids⟩ cid = true := by
  have hmem : block_path cid ∈ dirEntries (put store cid data).1.dir := by
    simp only [put, fsWrite]
    exact mem_dirEntries_dirInsert store.dir (block_path cid) data
  have hin : cid ∈ cids :=
    scanEntries_mem_of_entry validCid _ [] cids (block_path cid) cid hopen hmem
      (fileExtension_block_path cid hne) (fileStem_block_path cid hne) hv
  simp [contains, hin]

/-- Witness for C7: put into an empty store, reopen, contains holds. -/
theorem persistence_after_reopen_witness :
    contains ⟨(put ⟨[], []⟩ ['a'] [1]).1.dir, [['a']]⟩ ['a'] = true :=
  persistence_after_reopen (fun _ => true) ⟨[], []⟩ ['a'] [1] [['a']]
    (by decide) rfl (by decide)

/-- C8 counterexample: with peer 7 holding ledger state in the decision
engine and absent from the mdns service's node list, delivering an mDNS
`Expired` event for peer 7 removes it from the floodsub partial view but
leaves the decision engine's peer state untouched — no eviction. -/
theorem mdns_expired_no_eviction_cex :
    (injectMdnsEvent ⟨[], [], [7], 0, 0, [7]⟩ (.Expired [7])).bitswapPeers = [7] ∧
    (injectMdnsEvent ⟨[], [], [7], 0, 0, [7]⟩ (.Expired [7])).floodsubView = [] := by
  constructor <;> decide

/-- C8 amended: an mDNS `Expired` event leaves the bitswap decision
engine's state (and the mdns, kademlia, ping and identify fields)
unchanged; its only effect is to remove each expired peer the mdns
service no longer has from the floodsub partial view. -/
theorem mdns_expired_floodsub_only (b : Behaviour) (l : List PeerId) :
    ((injectMdnsEvent b (.Expired l)).mdns = b.mdns ∧
     (injectMdnsEvent b (.Expired l)).kademlia = b.kademlia ∧
     (injectMdnsEvent b (.Expired l)).bitswapPeers = b.bitswapPeers ∧
     (injectMdnsEvent b (.Expired l)).ping = b.ping ∧
     (injectMdnsEvent b (.Expired l)).identify = b.identify) ∧
    (∀ peer : PeerId, peer ∉ b.mdns →
      injectMdnsEvent b (.Expired [peer]) =
        { b with floodsubView := floodsubRemoveNode b.floodsubView peer }) := by
  refine ⟨injectMdnsEvent_expired_frame l b, fun peer h => ?_⟩
  simp [injectMdnsEvent, h]

/-- Witness for C8's amended theorem at a concrete behaviour state. -/
theorem mdns_expired_floodsub_only_witness :
    injectMdnsEvent ⟨[], [], [5], 0, 0, [5, 6]⟩ (.Expired [5]) =
      ⟨[], [], [5], 0, 0, [6]⟩ := by
  have h := (mdns_expired_floodsub_only ⟨[], [], [5], 0, 0, [5, 6]⟩ [5]).2 5 (by decide)
  simpa using h

/-- C9: `provide_block` and `stop_providing_block` are stubs — they
perform no announcement and leave every field of the behaviour state
unchanged. -/
theorem provide_block_noop (b : Behaviour) (cid : Cid) :
    provide_block b cid = b ∧ stop_providing_block b cid = b :=
  ⟨rfl, rfl⟩

/-- C10: during the directory scan of `open`, an entry whose extension
is not `".data"` is silently skipped; and the scan succeeds exactly when
every `".data"` entry's stem parses as a valid identifier (an
unparseable stem aborts the scan with the parse error). -/
theorem open_policy :
    (∀ (validCid : List Char → Bool) (name : List Char)
        (rest : List (List Char)) (acc : List Cid),
      fileExtension name ≠ some dataExt →
      scanEntries validCid (name :: rest) acc = scanEntries validCid rest acc) ∧
    (∀ (validCid : List Char → Bool) (entries : List (List Char)),
      (∃ cids, openStore validCid entries = .ok cids) ↔
      (∀ name ∈ entries, fileExtension name = some dataExt →
        ∀ stem, fileStem name = some stem → validCid stem = true)) := by
  constructor
  · intro v name rest acc h
    simp [scanEntries, h]
  · intro v entries
    exact scanEntries_ok_iff v entries []

/-- Witness for C10: a no-extension entry is skipped even under a
rejecting parser, and a directory of one well-formed `".data"` entry
scans successfully. -/
theorem open_policy_witness :
    scanEntries (fun _ => false) [['r', 'e', 'a', 'd', 'm', 'e']] [] =
      scanEntries (fun _ => false) [] [] ∧
    (∃ cids, openStore (fun _ => true) [['x', '.', 'd', 'a', 't', 'a']] = .ok cids) :=
  ⟨open_policy.1 (fun _ => false) ['r', 'e', 'a', 'd', 'm', 'e'] [] [] (by decide),
   (open_policy.2 (fun _ => true) [['x', '.', 'd', 'a', 't', 'a']]).mpr (by decide)⟩

end RustIpfs
